import Mathlib

/-!
Verification of the wide-string decoding and NUL-terminated view library.

Buffers of code units are modelled as `List Nat`: the list holds the code
units from the decode cursor (or view start) onward, and the library's
safety contract guarantees a zero unit (`NUL`) is reachable, so list
positions past a terminating zero are never examined.  Code units are the
numeric values of the 16-bit or 32-bit units (signedness is cosmetic in
the source: the signed instantiations transmute to the unsigned ones
before any arithmetic).  Unicode scalar values are modelled as `Nat`, and
a decode step returns `Except Nat Nat`: `Except.ok scalar` or
`Except.error unit` carrying the offending raw code unit.
-/

namespace Thicc

/-- One decode step of the 16-bit decoder, from `impl_decode_utf16` in
`src/char/convert.rs` (`Decode::next` for `u16`/`i16`): read the unit `u`
at the cursor; at the terminator return `none` without moving; a
non-surrogate is returned directly; a trailing surrogate in leading
position is an error; a leading surrogate peeks at the next unit and
either combines the pair (consuming both) or reports an error consuming
only `u`.  The returned list is the buffer from the advanced cursor.
Reading the lookahead unit of an empty tail is modelled as reading the
terminator (the NUL-termination contract makes that case unreachable). -/
def decodeNext16 : List Nat → Option (Except Nat Nat) × List Nat
  | [] => (none, [])
  | u :: rest =>
    if u = 0 then (none, u :: rest)
    else if u < 0xD800 ∨ 0xDFFF < u then (some (Except.ok u), rest)
    else if 0xDC00 ≤ u then (some (Except.error u), rest)
    else
      if rest.headD 0 = 0 ∨ rest.headD 0 < 0xDC00 ∨ 0xDFFF < rest.headD 0 then
        (some (Except.error u), rest)
      else
        (some (Except.ok ((((u - 0xD800) <<< 10) ||| (rest.headD 0 - 0xDC00)) + 0x10000)),
          rest.tail)

/-- Validity test for a 32-bit unit, the semantics of `char::from_u32`:
a Unicode scalar value is below the surrogate range or above it, and at
most `0x10FFFF`. -/
def isValidScalar (u : Nat) : Bool := (decide (u < 0xD800) || decide (0xDFFF < u)) && decide (u ≤ 0x10FFFF)

/-- One decode step of the 32-bit decoder, from `impl_decode_utf32` in
`src/char/convert.rs` (`Decode::next` for `u32`/`i32`): read one unit;
at the terminator return `none` without moving; otherwise advance by one
and return the unit as a scalar when `char::from_u32` accepts it, else an
error carrying the unit. -/
def decodeNext32 : List Nat → Option (Except Nat Nat) × List Nat
  | [] => (none, [])
  | u :: rest =>
    if u = 0 then (none, u :: rest)
    else if isValidScalar u then (some (Except.ok u), rest)
    else (some (Except.error u), rest)

/-- Repeated decoding: the sequence of results produced by pulling a step
function until it yields `none`, with fuel bounding the number of steps.
This is the list of items the `Chars` iterator yields. -/
def decodeAll (step : List Nat → Option (Except Nat Nat) × List Nat) :
    Nat → List Nat → List (Except Nat Nat)
  | 0, _ => []
  | fuel + 1, buf =>
    match step buf with
    | (some r, buf2) => r :: decodeAll step fuel buf2
    | (none, _) => []

/-- The full result sequence of the 16-bit `Chars` iterator started at
`buf`.  A step that yields an item always consumes at least one unit, so
`buf.length` fuel is enough. -/
def chars16 (buf : List Nat) : List (Except Nat Nat) :=
  decodeAll decodeNext16 buf.length buf

/-- The full result sequence of the 32-bit `Chars` iterator started at
`buf`. -/
def chars32 (buf : List Nat) : List (Except Nat Nat) :=
  decodeAll decodeNext32 buf.length buf

/-- The portable length scan, from the default `SpecLen::wcslen` in
`src/char/mod.rs`: walk forward counting units until a zero unit. -/
def wcslen : List Nat → Nat
  | [] => 0
  | u :: rest => if u = 0 then 0 else wcslen rest + 1

/-- Modelled from the spec: the platform-specialized length scan
(`libc::wcslen`, not part of this repository) — the unit count preceding
the terminating zero, stated declaratively as the length of the maximal
zero-free front of the buffer. -/
def wcslenSpec (buf : List Nat) : Nat := (buf.takeWhile (fun u => u != 0)).length

/-- Modelled from the spec: the portable needle search (the `wmemchr`
crate's fallback called by the default `SpecFind::wmemchr`, not part of
this repository) — a linear scan returning the index of the first
occurrence of `needle`, or `none`. -/
def wmemchr (needle : Nat) : List Nat → Option Nat
  | [] => none
  | u :: rest =>
    if u = needle then some 0 else (wmemchr needle rest).map (· + 1)

/-- Modelled from the spec: the platform-specialized needle search (the
`libc::wmemchr` path) — the index of the first occurrence of the needle,
stated declaratively via `List.findIdx?`. -/
def wmemchrSpec (needle : Nat) (hay : List Nat) : Option Nat :=
  hay.findIdx? (fun u => u == needle)

/-- Construction error of the checked constructor, from
`FromSliceWithNulError` in `src/wcstr.rs` (the single-struct wrapper
around the kind enum is flattened). -/
inductive FromSliceWithNulError
  | interiorNul (pos : Nat)
  | notNulTerminated
deriving DecidableEq

/-- The checked constructor `WCStr::from_slice_with_nul` from
`src/wcstr.rs`: search the slice for the first zero unit; absent → error
`notNulTerminated`; present before the last index → error `interiorNul`;
at the last index → the view over the full slice (the unchecked
construction wraps the slice's pointer, so the view's buffer is the
slice itself). -/
def from_slice_with_nul (slice : List Nat) :
    Except FromSliceWithNulError (List Nat) :=
  match wmemchr 0 slice with
  | some nulPos =>
    if nulPos + 1 ≠ slice.length then
      Except.error (FromSliceWithNulError.interiorNul nulPos)
    else
      Except.ok slice
  | none => Except.error FromSliceWithNulError.notNulTerminated

/-- `WCStr::len` from `src/wcstr.rs`: the length scan run on the view's
buffer, computed on demand. -/
def len (s : List Nat) : Nat := wcslen s

/-- `WCStr::to_slice` from `src/wcstr.rs`: the slice of `len` units from
the view's pointer, excluding the terminator. -/
def to_slice (s : List Nat) : List Nat := s.take (wcslen s)

/-- `WCStr::to_slice_with_nul` from `src/wcstr.rs`: the slice of
`len + 1` units from the view's pointer, including the terminator. -/
def to_slice_with_nul (s : List Nat) : List Nat := s.take (wcslen s + 1)

/-- The Unicode replacement character U+FFFD. -/
def replacementChar : Nat := 0xFFFD

/-- `WCStr::to_string_lossy` from `src/wcstr.rs` for the 16-bit widths:
map `unwrap_or(REPLACEMENT_CHARACTER)` over the decode results and
collect.  The produced string is modelled as its list of scalar values. -/
def to_string_lossy16 (s : List Nat) : List Nat :=
  (chars16 s).map (fun r => match r with
    | Except.ok c => c
    | Except.error _ => replacementChar)

/-- `WCStr::to_string_lossy` for the 32-bit widths. -/
def to_string_lossy32 (s : List Nat) : List Nat :=
  (chars32 s).map (fun r => match r with
    | Except.ok c => c
    | Except.error _ => replacementChar)

/-- `Decode::size_hint` for the 16-bit widths, from
`src/char/convert.rs`: lower bound all surrogate pairs, upper bound all
single units, of the remaining unit count `n`. -/
def sizeHint16 (n : Nat) : Nat × Option Nat := (n / 2, some n)

/-- `Decode::size_hint` for the 32-bit widths, from
`src/char/convert.rs`: exact remaining unit count. -/
def sizeHint32 (n : Nat) : Nat × Option Nat := (n, some n)

/-- Encoding of a scalar value into 16-bit code units, as used by the
spec's roundtrip property: one unit below `0x10000`, otherwise the
surrogate pair for `c - 0x10000`. -/
def encodeUtf16 (c : Nat) : List Nat :=
  if c < 0x10000 then [c]
  else [0xD800 + (c - 0x10000) / 0x400, 0xDC00 + (c - 0x10000) % 0x400]

/-- Encoding of a scalar value into its single 32-bit code unit. -/
def encodeUtf32 (c : Nat) : List Nat := [c]

/-! ### Branch lemmas for the decode steps -/

theorem decodeNext16_zero (rest : List Nat) :
    decodeNext16 (0 :: rest) = (none, 0 :: rest) := by
  simp [decodeNext16]

theorem decodeNext16_direct (u : Nat) (rest : List Nat) (h0 : u ≠ 0)
    (h : u < 0xD800 ∨ 0xDFFF < u) :
    decodeNext16 (u :: rest) = (some (Except.ok u), rest) := by
  simp only [decodeNext16]
  rw [if_neg h0, if_pos h]

theorem decodeNext16_low (u : Nat) (rest : List Nat) (h1 : 0xDC00 ≤ u)
    (h2 : u ≤ 0xDFFF) :
    decodeNext16 (u :: rest) = (some (Except.error u), rest) := by
  simp only [decodeNext16]
  rw [if_neg (by omega), if_neg (by omega), if_pos h1]

theorem decodeNext16_unpaired (u : Nat) (rest : List Nat) (h1 : 0xD800 ≤ u)
    (h2 : u ≤ 0xDBFF)
    (h3 : rest.headD 0 < 0xDC00 ∨ 0xDFFF < rest.headD 0) :
    decodeNext16 (u :: rest) = (some (Except.error u), rest) := by
  simp only [decodeNext16]
  rw [if_neg (by omega), if_neg (by omega), if_neg (by omega), if_pos (by omega)]

theorem decodeNext16_pair (u u2 : Nat) (rest : List Nat) (h1 : 0xD800 ≤ u)
    (h2 : u ≤ 0xDBFF) (h3 : 0xDC00 ≤ u2) (h4 : u2 ≤ 0xDFFF) :
    decodeNext16 (u :: u2 :: rest) =
      (some (Except.ok ((((u - 0xD800) <<< 10) ||| (u2 - 0xDC00)) + 0x10000)), rest) := by
  simp only [decodeNext16, List.headD_cons, List.tail_cons]
  rw [if_neg (by omega), if_neg (by omega), if_neg (by omega), if_neg (by omega)]

theorem decodeNext32_zero (rest : List Nat) :
    decodeNext32 (0 :: rest) = (none, 0 :: rest) := by
  simp [decodeNext32]

theorem decodeNext32_step (u : Nat) (rest : List Nat) (hu : u ≠ 0) :
    decodeNext32 (u :: rest) =
      (some (if isValidScalar u then Except.ok u else Except.error u), rest) := by
  simp only [decodeNext32]
  rw [if_neg hu]
  by_cases h : isValidScalar u
  · rw [if_pos h, if_pos h]
  · rw [if_neg h, if_neg h]

theorem decodeNext16_shrink (buf buf2 : List Nat) (r : Except Nat Nat)
    (h : decodeNext16 buf = (some r, buf2)) : buf2.length < buf.length := by
  match buf with
  | [] => simp [decodeNext16] at h
  | u :: rest =>
    have h3 := List.length_tail rest
    simp only [decodeNext16] at h
    split at h
    · simp at h
    · split at h
      · have h2 : rest = buf2 := congrArg Prod.snd h
        subst h2
        simp only [List.length_cons]
        omega
      · split at h
        · have h2 : rest = buf2 := congrArg Prod.snd h
          subst h2
          simp only [List.length_cons]
          omega
        · split at h
          · have h2 : rest = buf2 := congrArg Prod.snd h
            subst h2
            simp only [List.length_cons]
            omega
          · have h2 : rest.tail = buf2 := congrArg Prod.snd h
            simp only [← h2, List.length_cons, h3]
            omega

theorem decodeNext32_shrink (buf buf2 : List Nat) (r : Except Nat Nat)
    (h : decodeNext32 buf = (some r, buf2)) : buf2.length < buf.length := by
  match buf with
  | [] => simp [decodeNext32] at h
  | u :: rest =>
    simp only [decodeNext32] at h
    split at h
    · simp at h
    · split at h <;>
      · have h2 : rest = buf2 := congrArg Prod.snd h
        subst h2
        simp only [List.length_cons]
        omega


theorem decodeAll_nil (step : List Nat → Option (Except Nat Nat) × List Nat)
    (hstep : ∀ buf r buf2, step buf = (some r, buf2) → buf2.length < buf.length)
    (f : Nat) : decodeAll step f [] = [] := by
  cases f with
  | zero => rfl
  | succ f =>
    simp only [decodeAll]
    cases h : step [] with
    | mk o s =>
      cases o with
      | none => rfl
      | some r =>
        have := hstep [] r s h
        simp at this

/-- With enough fuel, `decodeAll` does not depend on the exact fuel amount,
provided each productive step strictly shrinks the buffer. -/
theorem decodeAll_congr (step : List Nat → Option (Except Nat Nat) × List Nat)
    (hstep : ∀ buf r buf2, step buf = (some r, buf2) → buf2.length < buf.length)
    (f1 f2 : Nat) (buf : List Nat) (h1 : buf.length ≤ f1) (h2 : buf.length ≤ f2) :
    decodeAll step f1 buf = decodeAll step f2 buf := by
  induction f1 generalizing f2 buf with
  | zero =>
    have : buf = [] := List.length_eq_zero.mp (Nat.le_zero.mp h1)
    subst this
    rw [decodeAll_nil step hstep, decodeAll_nil step hstep]
  | succ f1 ih =>
    cases f2 with
    | zero =>
      have : buf = [] := List.length_eq_zero.mp (Nat.le_zero.mp h2)
      subst this
      rw [decodeAll_nil step hstep, decodeAll_nil step hstep]
    | succ f2 =>
      simp only [decodeAll]
      cases h : step buf with
      | mk o s =>
        cases o with
        | none => rfl
        | some r =>
          have hs := hstep buf r s h
          show r :: decodeAll step f1 s = r :: decodeAll step f2 s
          rw [ih f2 s (by omega) (by omega)]

/-! ### Unfolding lemmas for the iterator sequences -/

theorem chars16_nil : chars16 [] = [] := rfl

theorem chars32_nil : chars32 [] = [] := rfl

theorem chars16_zero (rest : List Nat) : chars16 (0 :: rest) = [] := by
  show decodeAll decodeNext16 (rest.length + 1) (0 :: rest) = []
  simp only [decodeAll, decodeNext16_zero]

theorem chars32_zero (rest : List Nat) : chars32 (0 :: rest) = [] := by
  show decodeAll decodeNext32 (rest.length + 1) (0 :: rest) = []
  simp only [decodeAll, decodeNext32_zero]

theorem chars16_step (buf buf2 : List Nat) (r : Except Nat Nat)
    (h : decodeNext16 buf = (some r, buf2)) :
    chars16 buf = r :: chars16 buf2 := by
  have hlt := decodeNext16_shrink buf buf2 r h
  match buf with
  | [] => simp [decodeNext16] at h
  | u :: rest =>
    show decodeAll decodeNext16 (rest.length + 1) (u :: rest) = _
    simp only [decodeAll, h]
    congr 1
    exact decodeAll_congr decodeNext16
      (fun b rr b2 hh => decodeNext16_shrink b b2 rr hh)
      rest.length buf2.length buf2
      (by simp only [List.length_cons] at hlt; omega) (le_refl _)

theorem chars32_step (buf buf2 : List Nat) (r : Except Nat Nat)
    (h : decodeNext32 buf = (some r, buf2)) :
    chars32 buf = r :: chars32 buf2 := by
  have hlt := decodeNext32_shrink buf buf2 r h
  match buf with
  | [] => simp [decodeNext32] at h
  | u :: rest =>
    show decodeAll decodeNext32 (rest.length + 1) (u :: rest) = _
    simp only [decodeAll, h]
    congr 1
    exact decodeAll_congr decodeNext32
      (fun b rr b2 hh => decodeNext32_shrink b b2 rr hh)
      rest.length buf2.length buf2
      (by simp only [List.length_cons] at hlt; omega) (le_refl _)

/-! ### Length-scan and needle-search lemmas -/

theorem wcslen_nil : wcslen [] = 0 := rfl

theorem wcslen_zero (rest : List Nat) : wcslen (0 :: rest) = 0 := by
  simp [wcslen]

theorem wcslen_cons (u : Nat) (rest : List Nat) (h : u ≠ 0) :
    wcslen (u :: rest) = wcslen rest + 1 := by
  simp [wcslen, h]

theorem wcslen_eq_wcslenSpec (buf : List Nat) : wcslen buf = wcslenSpec buf := by
  induction buf with
  | nil => rfl
  | cons u rest ih =>
    by_cases h : u = 0
    · subst h
      simp [wcslen, wcslenSpec, List.takeWhile_cons]
    · simp [wcslen, wcslenSpec, List.takeWhile_cons, h] at ih ⊢
      omega

theorem wmemchr_eq_wmemchrSpec (needle : Nat) (hay : List Nat) :
    wmemchr needle hay = wmemchrSpec needle hay := by
  induction hay with
  | nil => rfl
  | cons u rest ih =>
    by_cases h : u = needle
    · subst h
      simp [wmemchr, wmemchrSpec, List.findIdx?_cons]
    · simp only [wmemchr, wmemchrSpec, List.findIdx?_cons, List.findIdx?_succ] at ih ⊢
      rw [if_neg h, if_neg (by simpa using h)]
      rw [ih]

theorem wmemchr_eq_some_iff (needle : Nat) (hay : List Nat) (i : Nat) :
    wmemchr needle hay = some i ↔
      (hay[i]? = some needle ∧ ∀ j, j < i → hay[j]? ≠ some needle) := by
  rw [wmemchr_eq_wmemchrSpec, wmemchrSpec, List.findIdx?_eq_some_iff_getElem]
  constructor
  · rintro ⟨hi, hp, hall⟩
    refine ⟨?_, ?_⟩
    · rw [List.getElem?_eq_getElem hi]
      simpa using hp
    · intro j hj hcontra
      have hjl : j < hay.length := Nat.lt_trans hj hi
      have := hall j hj
      rw [List.getElem?_eq_getElem hjl] at hcontra
      apply this
      simpa using Option.some.inj hcontra
  · rintro ⟨hi, hall⟩
    have hil : i < hay.length := by
      by_contra hc
      rw [List.getElem?_eq_none (by omega)] at hi
      exact Option.noConfusion hi
    refine ⟨hil, ?_, ?_⟩
    · rw [List.getElem?_eq_getElem hil] at hi
      simpa using Option.some.inj hi
    · intro j hj
      have hjl : j < hay.length := Nat.lt_trans hj hil
      have := hall j hj
      rw [List.getElem?_eq_getElem hjl] at this
      simp only [ne_eq, Option.some.injEq] at this
      simpa using this

theorem wmemchr_eq_none_iff (needle : Nat) (hay : List Nat) :
    wmemchr needle hay = none ↔ needle ∉ hay := by
  rw [wmemchr_eq_wmemchrSpec, wmemchrSpec, List.findIdx?_eq_none_iff]
  constructor
  · intro h hmem
    have := h needle hmem
    simp at this
  · intro h x hx
    simp only [beq_eq_false_iff_ne, ne_eq]
    intro hcontra
    subst hcontra
    exact h hx

theorem lor_shift_ten (a b : Nat) (hb : b < 1024) :
    (a <<< 10) ||| b = a * 1024 + b := by
  have h1 : a <<< 10 = 1024 * a := by
    rw [Nat.shiftLeft_eq]
    norm_num
    exact Nat.mul_comm a 1024
  have hb2 : b < 2 ^ 10 := by norm_num; omega
  rw [h1, ← Nat.mul_add_lt_is_or hb2 a]
  norm_num
  exact Nat.mul_comm 1024 a

theorem chars16_length_bounds (f : Nat) (buf : List Nat) (hf : buf.length ≤ f) :
    wcslen buf ≤ 2 * (decodeAll decodeNext16 f buf).length ∧
    (decodeAll decodeNext16 f buf).length ≤ wcslen buf := by
  induction f generalizing buf with
  | zero =>
    have : buf = [] := List.length_eq_zero.mp (Nat.le_zero.mp hf)
    subst this
    simp [decodeAll, wcslen]
  | succ f ih =>
    match buf with
    | [] =>
      rw [decodeAll_nil decodeNext16 (fun b r b2 hh => decodeNext16_shrink b b2 r hh)]
      simp [wcslen]
    | u :: rest =>
      simp only [List.length_cons] at hf
      by_cases hu : u = 0
      · subst hu
        simp only [decodeAll, decodeNext16_zero, wcslen_zero]
        simp
      · rw [wcslen_cons u rest hu]
        by_cases hd : u < 0xD800 ∨ 0xDFFF < u
        · simp only [decodeAll, decodeNext16_direct u rest hu hd, List.length_cons]
          have := ih rest (by omega)
          omega
        · by_cases hl : 0xDC00 ≤ u
          · simp only [decodeAll, decodeNext16_low u rest hl (by omega), List.length_cons]
            have := ih rest (by omega)
            omega
          · by_cases hbad : rest.headD 0 < 0xDC00 ∨ 0xDFFF < rest.headD 0
            · simp only [decodeAll,
                decodeNext16_unpaired u rest (by omega) (by omega) hbad, List.length_cons]
              have := ih rest (by omega)
              omega
            · match rest with
              | [] => simp at hbad
              | u2 :: rest2 =>
                simp only [List.headD_cons] at hbad
                simp only [List.length_cons] at hf
                simp only [decodeAll,
                  decodeNext16_pair u u2 rest2 (by omega) (by omega) (by omega) (by omega),
                  List.length_cons]
                rw [wcslen_cons u2 rest2 (by omega)]
                have := ih rest2 (by omega)
                omega

theorem chars32_length_exact (f : Nat) (buf : List Nat) (hf : buf.length ≤ f) :
    (decodeAll decodeNext32 f buf).length = wcslen buf := by
  induction f generalizing buf with
  | zero =>
    have : buf = [] := List.length_eq_zero.mp (Nat.le_zero.mp hf)
    subst this
    simp [decodeAll, wcslen]
  | succ f ih =>
    match buf with
    | [] =>
      rw [decodeAll_nil decodeNext32 (fun b r b2 hh => decodeNext32_shrink b b2 r hh)]
      simp [wcslen]
    | u :: rest =>
      simp only [List.length_cons] at hf
      by_cases hu : u = 0
      · subst hu
        simp only [decodeAll, decodeNext32_zero, wcslen_zero]
        simp
      · rw [wcslen_cons u rest hu]
        simp only [decodeAll, decodeNext32_step u rest hu, List.length_cons]
        rw [ih rest (by omega)]

theorem wcslen_eq_of_wmemchr (buf : List Nat) (i : Nat)
    (h : wmemchr 0 buf = some i) : wcslen buf = i := by
  induction buf generalizing i with
  | nil => simp [wmemchr] at h
  | cons u rest ih =>
    by_cases hu : u = 0
    · subst hu
      have h0 : wmemchr 0 (0 :: rest) = some 0 := by simp [wmemchr]
      rw [h0] at h
      rw [wcslen_zero]
      exact Option.some.inj h
    · simp only [wmemchr, if_neg hu] at h
      cases hw : wmemchr 0 rest with
      | none =>
        rw [hw] at h
        simp at h
      | some j =>
        rw [hw] at h
        simp only [Option.map_some', Option.some.injEq] at h
        rw [wcslen_cons u rest hu, ih j hw, h]

/-! ### Claim theorems -/

/-- Claim C1: for every 16-bit code-unit sequence in which a high
surrogate `u` in `[0xD800, 0xDBFF]` is immediately followed by a low
surrogate `u2` in `[0xDC00, 0xDFFF]`, one call to the decoder's `next`
yields exactly one `Ok` result with scalar
`((u - 0xD800) <<< 10 ||| (u2 - 0xDC00)) + 0x10000`, and advances the
cursor by exactly two units (the remaining buffer is `rest`). -/
theorem claim_C1 (u u2 : Nat) (rest : List Nat) (h1 : 0xD800 ≤ u)
    (h2 : u ≤ 0xDBFF) (h3 : 0xDC00 ≤ u2) (h4 : u2 ≤ 0xDFFF) :
    decodeNext16 (u :: u2 :: rest) =
      (some (Except.ok ((((u - 0xD800) <<< 10) ||| (u2 - 0xDC00)) + 0x10000)), rest) :=
  decodeNext16_pair u u2 rest h1 h2 h3 h4

theorem claim_C1_witness :
    decodeNext16 [0xD834, 0xDD1E, 0x0000] = (some (Except.ok 0x1D11E), [0x0000]) := by
  rw [claim_C1 0xD834 0xDD1E [0x0000] (by decide) (by decide) (by decide) (by decide)]
  rfl

/-- Claim C2: decode errors are per-step and carry the offending raw
unit.  A lone low surrogate as the current unit yields an error carrying
it and advances the cursor by exactly one unit; a high surrogate whose
lookahead unit is not in `[0xDC00, 0xDFFF]` (including when the
lookahead is the terminator, modelled by `headD 0`) yields an error
carrying the high surrogate and advances by exactly one unit only, so the
resulting buffer is exactly `rest` and the unconsumed lookahead unit is
the unit the next call examines; the next step is a function of that
buffer alone, so an error never affects later results. -/
theorem claim_C2 :
    (∀ u rest, 0xDC00 ≤ u → u ≤ 0xDFFF →
      decodeNext16 (u :: rest) = (some (Except.error u), rest)) ∧
    (∀ u rest, 0xD800 ≤ u → u ≤ 0xDBFF →
      (rest.headD 0 < 0xDC00 ∨ 0xDFFF < rest.headD 0) →
      decodeNext16 (u :: rest) = (some (Except.error u), rest)) :=
  ⟨fun u rest h1 h2 => decodeNext16_low u rest h1 h2,
   fun u rest h1 h2 h3 => decodeNext16_unpaired u rest h1 h2 h3⟩

theorem claim_C2_witness :
    decodeNext16 [0xDC00, 0x0041, 0x0000] = (some (Except.error 0xDC00), [0x0041, 0x0000]) ∧
    decodeNext16 [0xD800, 0x0000] = (some (Except.error 0xD800), [0x0000]) ∧
    decodeNext16 [0xD800, 0x0041, 0x0000] = (some (Except.error 0xD800), [0x0041, 0x0000]) :=
  ⟨claim_C2.1 0xDC00 [0x0041, 0x0000] (by decide) (by decide),
   claim_C2.2 0xD800 [0x0000] (by decide) (by decide) (by decide),
   claim_C2.2 0xD800 [0x0041, 0x0000] (by decide) (by decide) (by decide)⟩

/-- Claim C5: for the 32-bit decoder, each `next` call on a
non-terminator unit `u` reads exactly one unit and advances the cursor
by exactly one; it returns `Ok u` when `u` is a valid Unicode scalar
value and otherwise an error carrying `u`; and validity means exactly
being outside the surrogate range and at most `0x10FFFF`. -/
theorem claim_C5 (u : Nat) (rest : List Nat) (hu : u ≠ 0) :
    decodeNext32 (u :: rest) =
      (some (if isValidScalar u then Except.ok u else Except.error u), rest) ∧
    (isValidScalar u = true ↔ (¬(0xD800 ≤ u ∧ u ≤ 0xDFFF) ∧ u ≤ 0x10FFFF)) := by
  refine ⟨decodeNext32_step u rest hu, ?_⟩
  simp only [isValidScalar, Bool.and_eq_true, Bool.or_eq_true, decide_eq_true_eq]
  omega

theorem claim_C5_witness :
    decodeNext32 [0x1F980, 0x0000] = (some (Except.ok 0x1F980), [0x0000]) ∧
    decodeNext32 [0xD800, 0x0000] = (some (Except.error 0xD800), [0x0000]) := by
  constructor
  · rw [(claim_C5 0x1F980 [0x0000] (by decide)).1]
    rfl
  · rw [(claim_C5 0xD800 [0x0000] (by decide)).1]
    rfl

/-- Claim C10: when the decoder's cursor sits on the terminating zero
unit, `next` returns `none` and leaves the cursor unchanged; and for
both widths, whenever a step returns `none` the buffer is unchanged and
the following step returns `none` again, so the iterator is fused and
the cursor never advances past the terminator. -/
theorem claim_C10 :
    (∀ rest, decodeNext16 (0 :: rest) = (none, 0 :: rest)) ∧
    (∀ rest, decodeNext32 (0 :: rest) = (none, 0 :: rest)) ∧
    (∀ buf s, decodeNext16 buf = (none, s) → s = buf ∧ decodeNext16 s = (none, s)) ∧
    (∀ buf s, decodeNext32 buf = (none, s) → s = buf ∧ decodeNext32 s = (none, s)) := by
  refine ⟨decodeNext16_zero, decodeNext32_zero, ?_, ?_⟩
  · intro buf s h
    match buf with
    | [] =>
      simp only [decodeNext16, Prod.mk.injEq] at h
      refine ⟨h.2.symm, ?_⟩
      rw [← h.2]
      rfl
    | u :: rest =>
      by_cases hu : u = 0
      · subst hu
        rw [decodeNext16_zero] at h
        have hs : (0 : Nat) :: rest = s := congrArg Prod.snd h
        subst hs
        exact ⟨rfl, decodeNext16_zero rest⟩
      · exfalso
        simp only [decodeNext16] at h
        rw [if_neg hu] at h
        split at h
        · exact Option.noConfusion (congrArg Prod.fst h)
        · split at h
          · exact Option.noConfusion (congrArg Prod.fst h)
          · split at h
            · exact Option.noConfusion (congrArg Prod.fst h)
            · exact Option.noConfusion (congrArg Prod.fst h)
  · intro buf s h
    match buf with
    | [] =>
      simp only [decodeNext32, Prod.mk.injEq] at h
      refine ⟨h.2.symm, ?_⟩
      rw [← h.2]
      rfl
    | u :: rest =>
      by_cases hu : u = 0
      · subst hu
        rw [decodeNext32_zero] at h
        have hs : (0 : Nat) :: rest = s := congrArg Prod.snd h
        subst hs
        exact ⟨rfl, decodeNext32_zero rest⟩
      · exfalso
        simp only [decodeNext32] at h
        rw [if_neg hu] at h
        split at h
        · exact Option.noConfusion (congrArg Prod.fst h)
        · exact Option.noConfusion (congrArg Prod.fst h)

theorem claim_C10_witness :
    decodeNext16 [0x0000, 0x0041] = (none, [0x0000, 0x0041]) ∧
    decodeNext32 [0x0000] = (none, [0x0000]) ∧
    ([0x0000] = [0x0000] ∧ decodeNext16 [0x0000] = (none, [0x0000])) :=
  ⟨claim_C10.1 [0x0041], claim_C10.2.1 [],
   claim_C10.2.2.1 [0x0000] [0x0000] (claim_C10.1 [])⟩

/-- Claim C3: `from_slice_with_nul` is a trichotomy on the position of
the first zero unit: no zero unit → `notNulTerminated`; first zero unit
at index `i` with `i + 1 ≠ slice.length` → `interiorNul i`; first zero
unit exactly at the last index → success with a view over the full
slice. -/
theorem claim_C3 (slice : List Nat) :
    ((0 : Nat) ∉ slice →
      from_slice_with_nul slice = Except.error FromSliceWithNulError.notNulTerminated) ∧
    (∀ i, slice[i]? = some 0 → (∀ j, j < i → slice[j]? ≠ some 0) →
      ((i + 1 ≠ slice.length →
         from_slice_with_nul slice = Except.error (FromSliceWithNulError.interiorNul i)) ∧
       (i + 1 = slice.length → from_slice_with_nul slice = Except.ok slice))) := by
  constructor
  · intro h
    simp only [from_slice_with_nul, (wmemchr_eq_none_iff 0 slice).mpr h]
  · intro i hi hfirst
    have hw : wmemchr 0 slice = some i :=
      (wmemchr_eq_some_iff 0 slice i).mpr ⟨hi, hfirst⟩
    constructor
    · intro hne
      simp only [from_slice_with_nul, hw]
      rw [if_pos hne]
    · intro he
      simp only [from_slice_with_nul, hw]
      rw [if_neg (by omega)]

theorem claim_C3_witness :
    from_slice_with_nul [0x0041] = Except.error FromSliceWithNulError.notNulTerminated ∧
    from_slice_with_nul [0x0041, 0x0000, 0x0042] =
      Except.error (FromSliceWithNulError.interiorNul 1) ∧
    from_slice_with_nul [0x0041, 0x0000] = Except.ok [0x0041, 0x0000] :=
  ⟨(claim_C3 [0x0041]).1 (by decide),
   ((claim_C3 [0x0041, 0x0000, 0x0042]).2 1 (by rfl)
     (by
       intro j hj
       have hj0 : j = 0 := by omega
       subst hj0
       simp)).1 (by decide),
   ((claim_C3 [0x0041, 0x0000]).2 1 (by rfl)
     (by
       intro j hj
       have hj0 : j = 0 := by omega
       subst hj0
       simp)).2 (by decide)⟩

/-- Claim C6: for every slice on which `from_slice_with_nul` succeeds,
the resulting view satisfies `len = slice.length - 1` (a unit count, so
a surrogate pair contributes two), `to_slice` is the slice without its
final zero unit, and `to_slice_with_nul` is the original slice including
the terminator. -/
theorem claim_C6 (slice v : List Nat)
    (h : from_slice_with_nul slice = Except.ok v) :
    len v = slice.length - 1 ∧ to_slice v = slice.dropLast ∧
    to_slice_with_nul v = slice := by
  cases hw : wmemchr 0 slice with
  | none =>
    simp only [from_slice_with_nul, hw] at h
    exact Except.noConfusion h
  | some i =>
    simp only [from_slice_with_nul, hw] at h
    by_cases hne : i + 1 ≠ slice.length
    · rw [if_pos hne] at h
      exact Except.noConfusion h
    · rw [if_neg hne] at h
      have hv : slice = v := Except.ok.inj h
      push_neg at hne
      subst hv
      have hlen : wcslen slice = i := wcslen_eq_of_wmemchr slice i hw
      refine ⟨?_, ?_, ?_⟩
      · simp only [len, hlen]
        omega
      · simp only [to_slice, hlen, List.dropLast_eq_take]
        congr 1
        omega
      · simp only [to_slice_with_nul, hlen, hne, List.take_length]

theorem claim_C6_witness :
    len [0xD834, 0xDD1E, 0x006D, 0x0000] = 3 ∧
    to_slice [0xD834, 0xDD1E, 0x006D, 0x0000] = [0xD834, 0xDD1E, 0x006D] ∧
    to_slice_with_nul [0xD834, 0xDD1E, 0x006D, 0x0000] =
      [0xD834, 0xDD1E, 0x006D, 0x0000] :=
  have h := claim_C6 [0xD834, 0xDD1E, 0x006D, 0x0000]
    [0xD834, 0xDD1E, 0x006D, 0x0000] rfl
  ⟨h.1.trans rfl, h.2.1.trans rfl, h.2.2.trans rfl⟩

/-- Claim C7: the platform-specialized and portable implementations of
the length scan and the needle search agree exactly: on every
NUL-terminated buffer the portable unit-by-unit `wcslen` equals the
specialized (spec-modelled) scan, and on every slice and needle the
portable linear `wmemchr` equals the specialized (spec-modelled) search,
first occurrence or `none`. -/
theorem claim_C7 :
    (∀ buf : List Nat, 0 ∈ buf → wcslen buf = wcslenSpec buf) ∧
    (∀ (needle : Nat) (hay : List Nat), wmemchr needle hay = wmemchrSpec needle hay) :=
  ⟨fun buf _ => wcslen_eq_wcslenSpec buf, wmemchr_eq_wmemchrSpec⟩

theorem claim_C7_witness :
    wcslen [0x0000] = wcslenSpec [0x0000] ∧
    wmemchr 7 [7, 7, 7] = wmemchrSpec 7 [7, 7, 7] ∧
    wmemchr 9 [1, 2, 3] = wmemchrSpec 9 [1, 2, 3] :=
  ⟨claim_C7.1 [0x0000] (by decide), claim_C7.2 7 [7, 7, 7], claim_C7.2 9 [1, 2, 3]⟩

/-- Claim C8: `to_string_lossy` is total and produces exactly the decode
result sequence with every successfully decoded scalar unchanged, in its
original order and position, and exactly one U+FFFD replacement
character in place of each decode error, for both widths. -/
theorem claim_C8 (buf : List Nat) (i : Nat) :
    (to_string_lossy16 buf).length = (chars16 buf).length ∧
    (∀ c, (chars16 buf)[i]? = some (Except.ok c) →
      (to_string_lossy16 buf)[i]? = some c) ∧
    (∀ e, (chars16 buf)[i]? = some (Except.error e) →
      (to_string_lossy16 buf)[i]? = some replacementChar) ∧
    (to_string_lossy32 buf).length = (chars32 buf).length ∧
    (∀ c, (chars32 buf)[i]? = some (Except.ok c) →
      (to_string_lossy32 buf)[i]? = some c) ∧
    (∀ e, (chars32 buf)[i]? = some (Except.error e) →
      (to_string_lossy32 buf)[i]? = some replacementChar) := by
  refine ⟨List.length_map _ _, ?_, ?_, List.length_map _ _, ?_, ?_⟩ <;>
    intro x hx <;>
    simp [to_string_lossy16, to_string_lossy32, List.getElem?_map, hx]

theorem claim_C8_witness :
    (to_string_lossy16 [0xD834, 0xDD1E, 0xDC00, 0x0041, 0x0000])[1]? =
      some replacementChar ∧
    (to_string_lossy16 [0xD834, 0xDD1E, 0xDC00, 0x0041, 0x0000])[2]? = some 0x0041 :=
  ⟨(claim_C8 [0xD834, 0xDD1E, 0xDC00, 0x0041, 0x0000] 1).2.2.1 0xDC00 rfl,
   (claim_C8 [0xD834, 0xDD1E, 0xDC00, 0x0041, 0x0000] 2).2.1 0x0041 rfl⟩

/-- Claim C9: the decoder's size hint computed from the remaining unit
count `n = wcslen buf` is `(n / 2, some n)` for the 16-bit widths and
`(n, some n)` for the 32-bit widths, the number of items the iterator
actually yields lies within those bounds, and for the 32-bit widths it
yields exactly `n` items. -/
theorem claim_C9 (buf : List Nat) :
    sizeHint16 (wcslen buf) = (wcslen buf / 2, some (wcslen buf)) ∧
    wcslen buf / 2 ≤ (chars16 buf).length ∧
    (chars16 buf).length ≤ wcslen buf ∧
    sizeHint32 (wcslen buf) = (wcslen buf, some (wcslen buf)) ∧
    (chars32 buf).length = wcslen buf := by
  have h16 := chars16_length_bounds buf.length buf (le_refl _)
  have h32 := chars32_length_exact buf.length buf (le_refl _)
  refine ⟨rfl, ?_, ?_, rfl, ?_⟩
  · show wcslen buf / 2 ≤ (decodeAll decodeNext16 buf.length buf).length
    omega
  · show (decodeAll decodeNext16 buf.length buf).length ≤ wcslen buf
    omega
  · exact h32

/-- Claim C4 as stated is false at the scalar value `c = 0`: encoding
U+0000 and appending the terminating zero yields a buffer starting with
the terminator, which decodes to the empty sequence, not `[Ok(0)]`. -/
theorem claim_C4_counterexample :
    encodeUtf16 0 ++ [0] = [0, 0] ∧ chars16 [0, 0] = [] ∧
    encodeUtf32 0 ++ [0] = [0, 0] ∧ chars32 [0, 0] = [] ∧
    ([] : List (Except Nat Nat)) ≠ [Except.ok 0] := by
  refine ⟨rfl, rfl, rfl, rfl, ?_⟩
  intro h
  exact List.noConfusion h

/-- Claim C4, amended to exclude U+0000 (which cannot round-trip through
a NUL-terminated buffer): for every valid Unicode scalar value `c` in
`[1, 0x10FFFF]` excluding the surrogate range, encoding `c` into its
16-bit code units (one unit below `0x10000`, else the surrogate pair) or
its single 32-bit code unit, appending a terminating zero unit, and
decoding yields exactly `[Ok(c)]` followed by termination. -/
theorem claim_C4 (c : Nat) (h0 : c ≠ 0) (hmax : c ≤ 0x10FFFF)
    (hsurr : c < 0xD800 ∨ 0xDFFF < c) :
    chars16 (encodeUtf16 c ++ [0]) = [Except.ok c] ∧
    chars32 (encodeUtf32 c ++ [0]) = [Except.ok c] := by
  constructor
  · by_cases hc : c < 0x10000
    · rw [encodeUtf16, if_pos hc]
      simp only [List.cons_append, List.nil_append]
      rw [chars16_step (c :: [0]) [0] (Except.ok c)
        (decodeNext16_direct c [0] h0 hsurr), chars16_zero]
    · rw [encodeUtf16, if_neg hc]
      simp only [List.cons_append, List.nil_append]
      have hpair := decodeNext16_pair (0xD800 + (c - 0x10000) / 0x400)
        (0xDC00 + (c - 0x10000) % 0x400) [0]
        (by omega) (by omega) (by omega) (by omega)
      rw [chars16_step _ [0] _ hpair, chars16_zero]
      have harith : ((0xD800 + (c - 0x10000) / 0x400 - 0xD800) <<< 10 |||
          (0xDC00 + (c - 0x10000) % 0x400 - 0xDC00)) + 0x10000 = c := by
        have e1 : 0xD800 + (c - 0x10000) / 0x400 - 0xD800 = (c - 0x10000) / 0x400 := by
          omega
        have e2 : 0xDC00 + (c - 0x10000) % 0x400 - 0xDC00 = (c - 0x10000) % 0x400 := by
          omega
        rw [e1, e2, lor_shift_ten _ _ (by omega)]
        omega
      rw [harith]
  · rw [encodeUtf32]
    simp only [List.cons_append, List.nil_append]
    have hv : isValidScalar c = true := by
      simp only [isValidScalar, Bool.and_eq_true, Bool.or_eq_true, decide_eq_true_eq]
      omega
    have hstep := decodeNext32_step c [0] h0
    rw [hv, if_pos rfl] at hstep
    rw [chars32_step (c :: [0]) [0] (Except.ok c) hstep, chars32_zero]

theorem claim_C4_witness :
    chars16 (encodeUtf16 0x1F980 ++ [0]) = [Except.ok 0x1F980] ∧
    chars32 (encodeUtf32 0x1F980 ++ [0]) = [Except.ok 0x1F980] :=
  claim_C4 0x1F980 (by decide) (by decide) (by decide)

end Thicc
